import Mathlib

/-!
Shallow embedding of the archive / index engine of `bot.py`.

The core under verification is the date-partitioned archive
(`save_full_news_of_today`), the month/year manifest rebuilds
(`update_month_manifest`, `update_year_manifest`), the paginated global
index (`gi_append_records`) and the per-cycle orchestration in `run`.

External collaborators (feedparser, BeautifulSoup HTML parsing, zoneinfo
timezone arithmetic, the Telegram transport) are out of scope per the
design: a feed entry is modelled by the already-normalized attribute
surface the core reads from it (e.g. the `src` of the first `<img>` of the
description is an entry field standing for the BeautifulSoup result, and a
parsed timestamp is represented by the local ISO rendering `to_local_iso`
would produce for it).

Python truthiness (`if x:` on `None` / `""`) is modelled explicitly by
`truthyS` / `truthyO`; persisted JSON files are modelled by association
lists keyed by path, and every operation additionally returns the list of
paths it opened for writing, so that frame/no-write claims are statable.
-/

namespace AnimBot

/-- Python truthiness of a string: `""` is falsy, everything else truthy. -/
def truthyS (s : String) : Bool := !(s == "")

/-- Python truthiness of an optional string: `None` and `""` are falsy. -/
def truthyO : Option String → Bool
  | some s => truthyS s
  | none => false

/-- Python `a or b` on optional strings: the first operand when truthy, else the second. -/
def orPy (a b : Option String) : Option String := if truthyO a then a else b

/-- Value of an optional string, with Python's `None`/missing collapsing to `""`
(as in `getattr(entry, "title", "") or ""`). -/
def strOf : Option String → String
  | some s => s
  | none => ""

/-- Suffix test on the underlying character lists (the `*.json` glob check);
kernel-reducible, unlike `String.endsWith`. -/
def strEndsWith (s suf : String) : Bool := suf.data.isSuffixOf s.data

/-- Prefix test on the underlying character lists (path-containment checks). -/
def strStartsWith (s pre : String) : Bool := pre.data.isPrefixOf s.data

/-- Drop the first `k` characters (used to strip a directory prefix). -/
def strDrop (s : String) (k : Nat) : String := (s.data.drop k).asString

/-- Python `Path(n).stem.split("-")[0]` for a `*.json` name: remove the 5-char
`.json` suffix and keep the characters before the first `-`. -/
def stemKey (n : String) : String :=
  ((n.data.take (n.data.length - 5)).takeWhile fun c => !(c == '-')).asString

/-- Code-point lexicographic comparison of character lists: the order Python
uses to compare and sort strings; kernel-reducible, unlike the iterator-based
`String.ltb`. -/
def charsLe : List Char → List Char → Bool
  | [], _ => true
  | _ :: _, [] => false
  | a :: as, b :: bs =>
    if a.toNat < b.toNat then true
    else if b.toNat < a.toNat then false
    else charsLe as bs

/-- Python string `<=`, as the sorting relation for `sorted(...)`. -/
def strLeP (a b : String) : Prop := charsLe a.data b.data = true

instance : DecidableRel strLeP := fun _ _ => instDecidableEqBool _ _

/-- Descending comparison of manifest entries by key, for Python
`sorted(days.items(), key=lambda kv: kv[0], reverse=True)`. -/
def pairKeyGe (a b : String × String) : Prop := charsLe b.1.data a.1.data = true

instance : DecidableRel pairKeyGe := fun _ _ => instDecidableEqBool _ _

/-- Decimal digit characters of `n`, most significant first, with explicit fuel
so the definition is structural (fuel `n+1` always suffices). This embeds the
decimal rendering Python's `str` / f-string formatting performs on an `int`. -/
def decChars : Nat → Nat → List Char
  | 0, _ => []
  | fuel + 1, n =>
    if n < 10 then [Nat.digitChar n]
    else decChars fuel (n / 10) ++ [Nat.digitChar (n % 10)]

/-- Decimal rendering of a natural number, as Python `str(n)` / `f"{n}"`. -/
def natToDec (n : Nat) : String := (decChars (n + 1) n).asString

/-- Reads a digit-character list back to its numeric value (left fold, base 10). -/
def decVal (cs : List Char) : Nat := cs.foldl (fun a c => 10 * a + (c.toNat - 48)) 0

/-- Python `f"{n:02d}"`: left pad with `0` to width 2. -/
def pad2 (n : Nat) : String := if n < 10 then "0" ++ natToDec n else natToDec n

/-- Local calendar date `(year, month, day)` in the fixed zone `Africa/Casablanca`. -/
structure Date where
  year : Nat
  month : Nat
  day : Nat
deriving DecidableEq, Repr

/-- Source `daily_path`: `data/{y}/{m:02d}/{d:02d}-{m:02d}.json`
(the `ensure_dir` side effect creates directories, not files, and is dropped). -/
def daily_path (dt : Date) : String :=
  "data/" ++ natToDec dt.year ++ "/" ++ pad2 dt.month ++ "/" ++
    pad2 dt.day ++ "-" ++ pad2 dt.month ++ ".json"

/-- The attribute surface of a feedparser entry that `bot.py` reads.
`media_thumbnail_url` stands for the URL the `media_thumbnail` branch of
`extract_image` yields (none when that branch falls through), and
`description_img` for the `src` of the first `<img>` BeautifulSoup finds in
the description markup; `published_parsed` / `updated_parsed` are
represented by the local ISO string `to_local_iso` would produce for the
parsed struct (`some none` = struct present but conversion fails). -/
structure Entry where
  id : Option String
  link : Option String
  title : Option String
  description : Option String
  media_thumbnail_url : Option String
  description_img : Option String
  tags : List (Option String)
  author : Option String
  authors_first_name : Option (Option String)
  published_parsed : Option (Option String)
  updated_parsed : Option (Option String)
  language : Option String
deriving DecidableEq, Repr

/-- Feed-level metadata (`feed.feed` dictionary keys read by `extract_language`). -/
structure FeedMeta where
  language : Option String
  lang : Option String
deriving DecidableEq, Repr

/-- Full archived record, exactly the dictionary built by `build_full_record`. -/
structure Record where
  id : Option String
  title : String
  description_full : String
  image : Option String
  categories : List String
  author : Option String
  published : Option String
  language : String
  url : String
deriving DecidableEq, Repr

/-- Source `extract_image`: prefer the `media_thumbnail` URL, else the first
`<img>` of the (truthy) description markup. -/
def extract_image (e : Entry) : Option String :=
  match e.media_thumbnail_url with
  | some u => some u
  | none => if truthyO e.description then e.description_img else none

/-- Source `extract_categories`: the truthy `term` of each tag, in order. -/
def extract_categories (e : Entry) : List String :=
  e.tags.filterMap fun t =>
    match t with
    | some s => if truthyS s then some s else none
    | none => none

/-- Source `extract_author`: the truthy `author` attribute, else the name of the
first element of a nonempty `authors` list, else `None`. -/
def extract_author (e : Entry) : Option String :=
  if truthyO e.author then e.author
  else
    match e.authors_first_name with
    | some n => n
    | none => none

/-- Source `extract_language`: `feed.feed.get("language") or feed.feed.get("lang")`. -/
def extract_language (fm : FeedMeta) : Option String := orPy fm.language fm.lang

/-- Source `to_local_iso` on the modelled parsed struct: the struct's local ISO
rendering (`none` when conversion raised). -/
def to_local_iso : Option (Option String) → Option String
  | some t => t
  | none => none

/-- Source `build_full_record`: id from `entry.id or entry.link or entry.title`
(truthiness chain), stringly fields defaulted to `""`, published from
`published_parsed or updated_parsed`, language defaulted via the feed then
`"ar-SA"`. -/
def build_full_record (e : Entry) (feed_lang_default : Option String) : Record :=
  let rec_id := orPy (orPy e.id e.link) e.title
  { id := if truthyO rec_id then rec_id else none
    title := strOf e.title
    description_full := strOf e.description
    image := extract_image e
    categories := extract_categories e
    author := extract_author e
    published := to_local_iso (if e.published_parsed.isSome then e.published_parsed else e.updated_parsed)
    language :=
      if truthyO e.language then strOf e.language
      else if truthyO feed_lang_default then strOf feed_lang_default
      else "ar-SA"
    url := strOf e.link }

/-- Association-list update keyed by string (replace in place, else append):
the semantics of overwriting / creating a file in a directory, and of a
Python dict assignment `d[k] = v`. -/
def assocWrite {β : Type} : List (String × β) → String → β → List (String × β)
  | [], p, v => [(p, v)]
  | (q, w) :: rest, p, v =>
    if q = p then (p, v) :: rest else (q, w) :: assocWrite rest p v

/-- Read with missing-key default, matching `load_json_list` on a missing file. -/
def assocRead {β : Type} (d : List (String × β)) (p : String) (dflt : β) : β :=
  match d.lookup p with
  | some v => v
  | none => dflt

/-- Observable state of a JSON-list file on disk, as `load_json_list` can find it:
missing, unreadable (I/O error), malformed (JSON parse error), well-formed JSON
that is not a list, or a well-formed list of records. -/
inductive FileContent where
  | missing
  | unreadable
  | malformed
  | notAList
  | list (l : List Record)
deriving DecidableEq, Repr

/-- Source `load_json_list`: a total function — a missing file yields `[]`
silently, an exception while opening/parsing is logged (`logging.error`) and
yields `[]`, well-formed non-list JSON yields `[]` silently. The boolean
records whether the error branch logged. -/
def load_json_list : FileContent → List Record × Bool
  | .missing => ([], false)
  | .unreadable => ([], true)
  | .malformed => ([], true)
  | .notAList => ([], false)
  | .list l => (l, false)

/-- The day-partition files on disk (well-formed contents), keyed by path. -/
abbrev Store := List (String × List Record)

def storeRead (st : Store) (p : String) : List Record := assocRead st p []

/-- Source seeding `seen_ids = {str(x.get("id")) for x in existing if x.get("id")}`
(set membership is modelled by list membership). -/
def seen_ids (existing : List Record) : List String :=
  (existing.filter fun x => truthyO x.id).map fun x => strOf x.id

/-- Source seeding `seen_urls = {str(x.get("url")) for x in existing if x.get("url")}`. -/
def seen_urls (existing : List Record) : List String :=
  (existing.filter fun x => truthyS x.url).map fun x => x.url

/-- The per-entry loop of `save_full_news_of_today`: skip a record whose truthy
id is already seen or whose truthy url is already seen, else append it to the
partition and the added list and extend both seen sets. Returns
`(added, final partition contents)`. -/
def archive_loop : List Record → List Record → List String → List String →
    List Record × List Record
  | [], existing, _, _ => ([], existing)
  | rec :: rest, existing, sids, surls =>
    if (truthyO rec.id && sids.contains (strOf rec.id)) ||
       (truthyS rec.url && surls.contains rec.url) then
      archive_loop rest existing sids surls
    else
      let sids' := if truthyO rec.id then sids ++ [strOf rec.id] else sids
      let surls' := if truthyS rec.url then surls ++ [rec.url] else surls
      let r := archive_loop rest (existing ++ [rec]) sids' surls'
      (rec :: r.1, r.2)

/-- Result of `save_full_news_of_today`: the added records, the partition path,
the partition store after the call, and the files written. -/
structure SaveResult where
  added : List Record
  path : String
  store : Store
  writes : List String
deriving DecidableEq, Repr

/-- Source `save_full_news_of_today`: partition path is `daily_path` of the
processing date (`now_local()`), existing contents are loaded (missing file =
`[]`), records are built from the entries and filtered against the seen
id/url sets, and the partition file is rewritten only when something was
added. Building each record inside the loop (as the source does) equals
mapping `build_full_record` first, since building is pure. -/
def feed_lang_of : Option FeedMeta → Option String
  | some fm => extract_language fm
  | none => none

def save_full_news_of_today (today : Date) (feed_meta : Option FeedMeta)
    (entries : List Entry) (st : Store) : SaveResult :=
  let path := daily_path today
  let existing := storeRead st path
  let recs := entries.map (build_full_record · (feed_lang_of feed_meta))
  let r := archive_loop recs existing (seen_ids existing) (seen_urls existing)
  if r.1.isEmpty then ⟨r.1, path, st, []⟩
  else ⟨r.1, path, assocWrite st path r.2, [path]⟩

/-- Month directory `data/{y}/{m:02d}`. -/
def month_dir (y m : Nat) : String := "data/" ++ natToDec y ++ "/" ++ pad2 m

def month_manifest_path (y m : Nat) : String := month_dir y m ++ "/month_manifest.json"

def year_manifest_path (y : Nat) : String :=
  "data/" ++ natToDec y ++ "/year_manifest.json"

/-- Month manifest content `{year, month, days}` with `days` mapping
day-of-month key to partition path, sorted by key descending. -/
structure MonthManifest where
  year : String
  month : String
  days : List (String × String)
deriving DecidableEq, Repr

/-- Year manifest content `{year, months}` with `months` mapping month name to
its month-manifest path, sorted descending. -/
structure YearManifest where
  year : String
  months : List (String × String)
deriving DecidableEq, Repr

/-- The `days` dictionary of `update_month_manifest`: fold over the sorted
`*.json` names, skipping `month_manifest.json`; `days[stem.split("-")[0]] = path`
(dict assignment = in-place replace). -/
def daysFold (y m : Nat) (sortedNames : List String) : List (String × String) :=
  sortedNames.foldl
    (fun days n =>
      if n = "month_manifest.json" then days
      else assocWrite days (stemKey n) (month_dir y m ++ "/" ++ n))
    []

/-- Source `update_month_manifest`, as a pure function of the file names present
in the month directory (the `glob("*.json")` results): it scans
`sorted(month_dir.glob("*.json"))`, builds `days`, and emits the manifest with
days sorted by key descending. Only the manifest value is computed here; the
caller records the write. -/
def update_month_manifest (y m : Nat) (names : List String) : MonthManifest :=
  let sortedNames := List.insertionSort strLeP (names.filter fun n => strEndsWith n ".json")
  { year := natToDec y
    month := pad2 m
    days := List.insertionSort pairKeyGe (daysFold y m sortedNames) }

/-- The `[0-1][0-9]` glob pattern of `update_year_manifest` on a name. -/
def isMonthDirName (n : String) : Bool :=
  match n.data with
  | [a, b] => (a == '0' || a == '1') && b.isDigit
  | _ => false

/-- Source `update_year_manifest`, as a pure function of the child names present
in the year directory: month directories matching `[0-1][0-9]`, each mapped to
its `month_manifest.json` path, sorted descending. -/
def update_year_manifest (y : Nat) (names : List String) : YearManifest :=
  let sortedNames := List.insertionSort strLeP (names.filter isMonthDirName)
  let months := sortedNames.foldl
    (fun ms n => assocWrite ms n ("data/" ++ natToDec y ++ "/" ++ n ++ "/month_manifest.json"))
    []
  { year := natToDec y
    months := List.insertionSort pairKeyGe months }

/-- Slim projection kept in the global index: `{title, image, url, categories}`. -/
structure SlimRecord where
  title : String
  image : Option String
  url : String
  categories : List String
deriving DecidableEq, Repr

/-- Source `convert_full_to_slim` (`r.get("categories") or []` is the identity
on the list our records carry). -/
def convert_full_to_slim (records : List Record) : List SlimRecord :=
  records.map fun r => ⟨r.title, r.image, r.url, r.categories⟩

/-- Pagination directory content `pagination.json`. -/
structure Pagination where
  total_articles : Nat
  files : List String
deriving DecidableEq, Repr

/-- Stats snapshot content `stats.json`. -/
structure Stats where
  total_articles : Nat
  added_today : Nat
  last_update : String
deriving DecidableEq, Repr

/-- Persisted state of the `global_index` directory: the pagination directory
(`none` = file missing), the page files keyed by bare name, and the stats
snapshot (`none` = file missing). -/
structure GIState where
  pagination : Option Pagination
  pages : List (String × List SlimRecord)
  stats : Option Stats
deriving DecidableEq, Repr

/-- The directory before the first cycle: no files at all. -/
def gi_init : GIState := ⟨none, [], none⟩

/-- Source `gi_load_pagination`: missing file defaults to
`{"total_articles": 0, "files": []}`. -/
def gi_load_pagination (st : GIState) : Pagination :=
  match st.pagination with
  | some p => p
  | none => ⟨0, []⟩

/-- Page file name `f"index_{i}.json"`. -/
def index_file_name (i : Nat) : String := "index_" ++ natToDec i ++ ".json"

def GLOBAL_PAGE_SIZE : Nat := 500

/-- Result of `gi_append_records`: new index state plus the files written. -/
structure GIResult where
  state : GIState
  writes : List String
deriving DecidableEq, Repr

/-- Source `gi_append_records`: early return on an empty batch; otherwise pick
the last page from the pagination directory (creating `index_1.json`, or
re-creating a listed page missing on disk); rotate to a fresh page only when
the loaded tail already holds at least `GLOBAL_PAGE_SIZE` items; extend the
page with the whole batch; then rewrite pagination (total increased by the
batch length) and overwrite the stats snapshot. -/
def gi_append_records (now_iso : String) (new_records : List SlimRecord)
    (st : GIState) : GIResult :=
  if new_records.isEmpty then ⟨st, []⟩
  else
    let pag := gi_load_pagination st
    let s0 :=
      if pag.files.isEmpty then
        (index_file_name 1, [index_file_name 1],
          assocWrite st.pages (index_file_name 1) [],
          ["global_index/" ++ index_file_name 1])
      else
        let fn := pag.files.getLastD ""
        if (st.pages.lookup fn).isNone then
          (fn, pag.files, assocWrite st.pages fn [], ["global_index/" ++ fn])
        else (fn, pag.files, st.pages, [])
    let items0 := assocRead s0.2.2.1 s0.1 []
    let s1 :=
      if GLOBAL_PAGE_SIZE ≤ items0.length then
        let nf := index_file_name (s0.2.1.length + 1)
        (nf, s0.2.1 ++ [nf], assocWrite s0.2.2.1 nf [],
          s0.2.2.2 ++ ["global_index/" ++ nf], ([] : List SlimRecord))
      else (s0.1, s0.2.1, s0.2.2.1, s0.2.2.2, items0)
    let items := s1.2.2.2.2 ++ new_records
    let pages := assocWrite s1.2.2.1 s1.1 items
    let total := pag.total_articles + new_records.length
    ⟨⟨some ⟨total, s1.2.1⟩, pages, some ⟨total, new_records.length, now_iso⟩⟩,
      s1.2.2.2.1 ++ ["global_index/" ++ s1.1, "global_index/pagination.json",
        "global_index/stats.json"]⟩

/-- Whole persisted state touched by one ingestion cycle. -/
structure CycleState where
  partitions : Store
  monthManifests : List (String × MonthManifest)
  yearManifests : List (String × YearManifest)
  gi : GIState
deriving DecidableEq, Repr

/-- Names of the files directly inside `dir` among `paths`. -/
def baseNamesUnder (dir : String) (paths : List String) : List String :=
  paths.filterMap fun p =>
    if strStartsWith p (dir ++ "/") then
      let rest := strDrop p (dir ++ "/").data.length
      if rest.data.contains '/' then none else some rest
    else none

/-- Names of the immediate child directories of `dir` evidenced by `paths`. -/
def childDirsUnder (dir : String) (paths : List String) : List String :=
  paths.filterMap fun p =>
    if strStartsWith p (dir ++ "/") then
      let rest := (strDrop p (dir ++ "/").data.length).data
      let d := rest.takeWhile fun c => !(c == '/')
      match rest.dropWhile fun c => !(c == '/') with
      | '/' :: tail => if tail.contains '/' then none else some d.asString
      | _ => none
    else none

/-- The `glob("*.json")` listing of the month directory: partition files
present there plus the month manifest file when it exists. -/
def monthDirListing (parts : Store) (mms : List (String × MonthManifest))
    (y m : Nat) : List String :=
  baseNamesUnder (month_dir y m) (parts.map Prod.fst) ++
    (if (mms.lookup (month_manifest_path y m)).isSome then ["month_manifest.json"] else [])

/-- The `glob("[0-1][0-9]")` listing of the year directory: month directories
evidenced by partition files or month manifests on disk (each once). -/
def yearDirListing (parts : Store) (mms : List (String × MonthManifest))
    (y : Nat) : List String :=
  (childDirsUnder ("data/" ++ natToDec y) (parts.map Prod.fst) ++
    childDirsUnder ("data/" ++ natToDec y) (mms.map Prod.fst)).dedup

/-- Result of one cycle: the new persisted state, the records the archive
reported as newly added, and the files written. -/
structure CycleResult where
  state : CycleState
  added : List Record
  writes : List String
deriving DecidableEq, Repr

/-- The archive/index slice of `run()` for one polling cycle: when the feed
batch is empty nothing runs (only a warning is logged); otherwise archive the
entries for today's partition, rebuild the month and year manifests for today
unconditionally, and append the slim projection of the added records to the
global index. The Telegram deliveries and the YouTube pointer file are
external collaborators and not part of the persisted archive state. -/
def cycle (today : Date) (feed_meta : Option FeedMeta) (now_iso : String)
    (entries : List Entry) (st : CycleState) : CycleResult :=
  if entries.isEmpty then ⟨st, [], []⟩
  else
    let sr := save_full_news_of_today today feed_meta entries st.partitions
    let mmP := month_manifest_path today.year today.month
    let mm := update_month_manifest today.year today.month
      (monthDirListing sr.store st.monthManifests today.year today.month)
    let mms := assocWrite st.monthManifests mmP mm
    let ymP := year_manifest_path today.year
    let ym := update_year_manifest today.year (yearDirListing sr.store mms today.year)
    let yms := assocWrite st.yearManifests ymP ym
    let gr := gi_append_records now_iso (convert_full_to_slim sr.added) st.gi
    ⟨⟨sr.store, mms, yms, gr.state⟩, sr.added, sr.writes ++ [mmP, ymP] ++ gr.writes⟩

/-- Folding any number of archive cycles (each with its own processing date,
feed metadata and entry batch) over the partition store. -/
def runArchive (cycles : List (Date × Option FeedMeta × List Entry)) (st : Store) : Store :=
  cycles.foldl (fun s c => (save_full_news_of_today c.1 c.2.1 c.2.2 s).store) st

/-- Folding any number of index appends (each with its own clock reading and
slim batch) from the empty `global_index` directory. -/
def giRun (steps : List (String × List SlimRecord)) : GIState :=
  steps.foldl (fun s c => (gi_append_records c.1 c.2 s).state) gi_init

/-- The dedup property as the claim states it: no two records share a truthy
id, and among records without a truthy id, no two share a truthy url. -/
def no_dup_claim (l : List Record) : Prop :=
  List.Pairwise (fun a b =>
    (truthyO a.id → truthyO b.id → a.id ≠ b.id) ∧
    (truthyO a.id = false → truthyO b.id = false →
      truthyS a.url → truthyS b.url → a.url ≠ b.url)) l

/-- The page files `index_(i+1).json, …, index_(i+k).json` with given contents,
as they sit in the `global_index` directory. -/
def pagesOfFrom (i : Nat) : List (List SlimRecord) → List (String × List SlimRecord)
  | [] => []
  | c :: cs => (index_file_name (i + 1), c) :: pagesOfFrom (i + 1) cs

/-- The page-file names `index_(i+1).json, …, index_(i+k).json`. -/
def filesOfFrom (i : Nat) : List (List SlimRecord) → List String
  | [] => []
  | _ :: cs => index_file_name (i + 1) :: filesOfFrom (i + 1) cs

/-- A fully consistent index state: page contents `cs`, pagination naming
exactly those pages with the total equal to the sum of their lengths. -/
def giOf (cs : List (List SlimRecord)) (stats : Option Stats) : GIState :=
  ⟨some ⟨(cs.map List.length).sum, filesOfFrom 0 cs⟩, pagesOfFrom 0 cs, stats⟩

/-- The reachable shapes of the `global_index` directory: untouched, or a
fully consistent family of pages in which every page but the last reached
capacity before being rotated away from. -/
def giShape (st : GIState) : Prop :=
  st = gi_init ∨ ∃ cs stats, cs ≠ [] ∧
    (∀ p ∈ cs.dropLast, GLOBAL_PAGE_SIZE ≤ p.length) ∧ st = giOf cs stats

/-! Concrete data used by scenario conjuncts, counterexamples and witnesses. -/

def sampleDate : Date := ⟨2025, 11, 9⟩

def sampleEntryA : Entry :=
  ⟨some "a", some "http://x/1", some "t1", none, none, none, [], none, none, none, none, none⟩

def sampleEntryB : Entry :=
  ⟨some "b", some "http://x/2", some "t2", none, none, none, [], none, none, none, none, none⟩

def sampleEntryC : Entry :=
  ⟨some "c", some "http://x/3", some "t3", none, none, none, [], none, none, none, none, none⟩

/-- An entry whose parsed publication timestamp falls on the local day before
`sampleDate`. -/
def samplePublished8 : Entry :=
  ⟨some "p8", some "http://x/8", some "t8", none, none, none, [], none, none,
    some (some "2025-11-08T23:30:00+01:00"), none, none⟩

/-- An entry whose parsed publication timestamp falls on `sampleDate` itself. -/
def samplePublished9 : Entry :=
  ⟨some "p9", some "http://x/9", some "t9", none, none, none, [], none, none,
    some (some "2025-11-09T00:30:00+01:00"), none, none⟩

def sampleSlim : SlimRecord := ⟨"t", none, "u", []⟩

/-- The record store after archiving `sampleEntryA` on `sampleDate`. -/
def sampleStoreA : Store := (save_full_news_of_today sampleDate none [sampleEntryA] []).store

def sampleRecordA : Record := build_full_record sampleEntryA none

def sampleRecordB : Record := build_full_record sampleEntryB none

/-- A cycle state whose day partition already holds `sampleEntryA`'s record. -/
def sampleCycleState : CycleState :=
  ⟨(save_full_news_of_today sampleDate none [sampleEntryA] []).store, [], [], gi_init⟩

/-! Decimal rendering and string-order lemmas. -/

theorem digitChar_val {n : Nat} (h : n < 10) : (Nat.digitChar n).toNat - 48 = n := by
  interval_cases n <;> rfl

theorem decVal_append_digit (l : List Char) (c : Char) :
    decVal (l ++ [c]) = 10 * decVal l + (c.toNat - 48) := by
  simp [decVal, List.foldl_append]

theorem decVal_decChars : ∀ fuel n, n ≤ fuel → decVal (decChars fuel n) = n := by
  intro fuel
  induction fuel with
  | zero =>
    intro n hn
    interval_cases n
    simp [decChars, decVal]
  | succ f ih =>
    intro n hn
    by_cases h : n < 10
    · simp [decChars, h, decVal, digitChar_val h]
    · have hge : 10 ≤ n := Nat.le_of_not_lt h
      have hrec : n / 10 ≤ f := by
        have : n / 10 < n := Nat.div_lt_self (by omega) (by omega)
        omega
      simp only [decChars, if_neg h]
      rw [decVal_append_digit, ih _ hrec, digitChar_val (Nat.mod_lt _ (by omega))]
      omega

theorem natToDec_injective : Function.Injective natToDec := by
  intro m n h
  have hd : decChars (m + 1) m = decChars (n + 1) n := congrArg String.data h
  have hm := decVal_decChars (m + 1) m (Nat.le_succ m)
  have hn := decVal_decChars (n + 1) n (Nat.le_succ n)
  rw [hd, hn] at hm
  exact hm.symm

theorem charsLe_total : ∀ x y : List Char, charsLe x y = true ∨ charsLe y x = true := by
  intro x
  induction x with
  | nil => intro y; left; rfl
  | cons a as ih =>
    intro y
    cases y with
    | nil => right; rfl
    | cons b bs =>
      by_cases h1 : a.toNat < b.toNat
      · left; simp [charsLe, h1]
      · by_cases h2 : b.toNat < a.toNat
        · right; simp [charsLe, h2]
        · rcases ih bs with h | h
          · left; simp [charsLe, h1, h2, h]
          · right; simp [charsLe, h1, h2, h]

theorem charsLe_trans : ∀ x y z : List Char,
    charsLe x y = true → charsLe y z = true → charsLe x z = true := by
  intro x
  induction x with
  | nil => intro y z _ _; rfl
  | cons a as ih =>
    intro y z hxy hyz
    cases y with
    | nil => simp [charsLe] at hxy
    | cons b bs =>
      cases z with
      | nil => simp [charsLe] at hyz
      | cons c cs =>
        simp only [charsLe] at hxy hyz ⊢
        by_cases hab : a.toNat < b.toNat
        · by_cases hbc : b.toNat < c.toNat
          · simp [show a.toNat < c.toNat by omega]
          · by_cases hcb : c.toNat < b.toNat
            · rw [if_neg hbc, if_pos hcb] at hyz
              exact absurd hyz (by simp)
            · simp [show a.toNat < c.toNat by omega]
        · by_cases hba : b.toNat < a.toNat
          · rw [if_neg hab, if_pos hba] at hxy
            exact absurd hxy (by simp)
          · by_cases hbc : b.toNat < c.toNat
            · simp [show a.toNat < c.toNat by omega]
            · by_cases hcb : c.toNat < b.toNat
              · rw [if_neg hbc, if_pos hcb] at hyz
                exact absurd hyz (by simp)
              · rw [if_neg hab, if_neg hba] at hxy
                rw [if_neg hbc, if_neg hcb] at hyz
                rw [if_neg (show ¬ a.toNat < c.toNat by omega),
                  if_neg (show ¬ c.toNat < a.toNat by omega)]
                exact ih bs cs hxy hyz

theorem charsLe_antisymm : ∀ x y : List Char,
    charsLe x y = true → charsLe y x = true → x = y := by
  intro x
  induction x with
  | nil =>
    intro y h1 h2
    cases y with
    | nil => rfl
    | cons b bs => simp [charsLe] at h2
  | cons a as ih =>
    intro y h1 h2
    cases y with
    | nil => simp [charsLe] at h1
    | cons b bs =>
      simp only [charsLe] at h1 h2
      by_cases hab : a.toNat < b.toNat
      · rw [if_neg (show ¬ b.toNat < a.toNat by omega), if_pos hab] at h2
        exact absurd h2 (by simp)
      · by_cases hba : b.toNat < a.toNat
        · rw [if_neg hab, if_pos hba] at h1
          exact absurd h1 (by simp)
        · rw [if_neg hab, if_neg hba] at h1
          rw [if_neg hba, if_neg hab] at h2
          have hab' : a.toNat = b.toNat := by omega
          have : a = b := Char.ext (UInt32.ext hab')
          rw [this, ih bs h1 h2]

instance : IsTotal String strLeP :=
  ⟨fun a b => charsLe_total a.data b.data⟩

instance : IsTrans String strLeP :=
  ⟨fun a b c => charsLe_trans a.data b.data c.data⟩

instance : IsAntisymm String strLeP :=
  ⟨fun a b h1 h2 => by
    cases a; cases b
    exact congrArg String.mk (charsLe_antisymm _ _ h1 h2)⟩

/-! Association-list lemmas. -/

theorem lookup_cons_self {β : Type} (p : String) (v : β) (tl : List (String × β)) :
    ((p, v) :: tl).lookup p = some v := by
  simp [List.lookup]

theorem lookup_cons_ne {β : Type} (p q : String) (v : β) (tl : List (String × β))
    (h : q ≠ p) : ((p, v) :: tl).lookup q = tl.lookup q := by
  have hb : (q == p) = false := beq_eq_false_iff_ne.mpr h
  simp [List.lookup, hb]

theorem lookup_assocWrite_self {β : Type} (d : List (String × β)) (p : String) (v : β) :
    (assocWrite d p v).lookup p = some v := by
  induction d with
  | nil => simp [assocWrite, List.lookup]
  | cons hd tl ih =>
    by_cases h : hd.1 = p
    · simp [assocWrite, h, List.lookup]
    · rw [show assocWrite (hd :: tl) p v = hd :: assocWrite tl p v by
        simp [assocWrite, h]]
      rcases hd with ⟨q, w⟩
      rw [lookup_cons_ne q p w _ (Ne.symm h)]
      exact ih

theorem lookup_assocWrite_ne {β : Type} (d : List (String × β)) (p q : String) (v : β)
    (h : q ≠ p) : (assocWrite d p v).lookup q = d.lookup q := by
  induction d with
  | nil =>
    exact lookup_cons_ne p q v [] h
  | cons hd tl ih =>
    rcases hd with ⟨a, w⟩
    by_cases h1 : a = p
    · subst h1
      have e : assocWrite ((a, w) :: tl) a v = (a, v) :: tl := by
        simp [assocWrite]
      rw [e, lookup_cons_ne _ _ _ _ h, lookup_cons_ne _ _ _ _ h]
    · simp only [assocWrite, if_neg h1]
      by_cases h2 : q = a
      · subst h2
        rw [lookup_cons_self, lookup_cons_self]
      · rw [lookup_cons_ne _ _ _ _ h2, lookup_cons_ne _ _ _ _ h2]
        exact ih

theorem assocWrite_of_not_mem {β : Type} (d : List (String × β)) (p : String) (v : β)
    (h : p ∉ d.map Prod.fst) : assocWrite d p v = d ++ [(p, v)] := by
  induction d with
  | nil => simp [assocWrite]
  | cons hd tl ih =>
    simp only [List.map_cons, List.mem_cons, not_or] at h
    simp [assocWrite, Ne.symm h.1, ih h.2]

theorem lookup_append_of_not_mem {β : Type} (d₁ d₂ : List (String × β)) (p : String)
    (h : p ∉ d₁.map Prod.fst) : (d₁ ++ d₂).lookup p = d₂.lookup p := by
  induction d₁ with
  | nil => simp
  | cons hd tl ih =>
    rcases hd with ⟨a, w⟩
    simp only [List.map_cons, List.mem_cons, not_or] at h
    rw [List.cons_append, lookup_cons_ne _ _ _ _ h.1]
    exact ih h.2

/-! Archive-loop lemmas. -/

theorem contains_iff_mem (l : List String) (a : String) : l.contains a = true ↔ a ∈ l :=
  List.elem_iff

theorem archive_loop_snd (recs : List Record) :
    ∀ existing sids surls,
      (archive_loop recs existing sids surls).2 =
        existing ++ (archive_loop recs existing sids surls).1 := by
  induction recs with
  | nil => intro existing sids surls; simp [archive_loop]
  | cons rec rest ih =>
    intro existing sids surls
    by_cases h : ((truthyO rec.id && sids.contains (strOf rec.id)) ||
        (truthyS rec.url && surls.contains rec.url)) = true
    · rw [archive_loop, if_pos h]
      exact ih existing sids surls
    · rw [archive_loop, if_neg h]
      simp only
      rw [ih]
      simp

theorem archive_loop_sublist (recs : List Record) :
    ∀ existing sids surls, List.Sublist (archive_loop recs existing sids surls).1 recs := by
  induction recs with
  | nil => intro existing sids surls; simp [archive_loop]
  | cons rec rest ih =>
    intro existing sids surls
    by_cases h : ((truthyO rec.id && sids.contains (strOf rec.id)) ||
        (truthyS rec.url && surls.contains rec.url)) = true
    · rw [archive_loop, if_pos h]
      exact (ih existing sids surls).cons rec
    · rw [archive_loop, if_neg h]
      exact (ih _ _ _).cons₂ rec

theorem archive_loop_fresh (recs : List Record) :
    ∀ existing sids surls r, r ∈ (archive_loop recs existing sids surls).1 →
      (truthyO r.id → strOf r.id ∉ sids) ∧ (truthyS r.url → r.url ∉ surls) := by
  induction recs with
  | nil => intro existing sids surls r hr; simp [archive_loop] at hr
  | cons rec rest ih =>
    intro existing sids surls r hr
    by_cases h : ((truthyO rec.id && sids.contains (strOf rec.id)) ||
        (truthyS rec.url && surls.contains rec.url)) = true
    · rw [archive_loop, if_pos h] at hr
      exact ih existing sids surls r hr
    · rw [archive_loop, if_neg h] at hr
      simp only [Bool.or_eq_true, Bool.and_eq_true, not_or, not_and,
        contains_iff_mem, Bool.not_eq_true] at h
      rcases List.mem_cons.mp hr with rfl | hr'
      · constructor
        · intro hid hmem
          have := h.1
          rw [hid] at this
          simp only [contains_iff_mem] at this
          simp [hmem] at this
        · intro hurl hmem
          have := h.2
          rw [hurl] at this
          simp only [contains_iff_mem] at this
          simp [hmem] at this
      · have hres := ih _ _ _ r hr'
        constructor
        · intro hid
          have h1 := hres.1 hid
          intro hmem
          apply h1
          by_cases ht : truthyO rec.id <;> simp [ht, List.mem_append, hmem]
        · intro hurl
          have h2 := hres.2 hurl
          intro hmem
          apply h2
          by_cases ht : truthyS rec.url <;> simp [ht, List.mem_append, hmem]

/-! Save-level lemmas. -/

theorem storeRead_assocWrite_self (st : Store) (p : String) (v : List Record) :
    storeRead (assocWrite st p v) p = v := by
  simp [storeRead, assocRead, lookup_assocWrite_self]

theorem storeRead_assocWrite_ne (st : Store) (p q : String) (v : List Record)
    (h : q ≠ p) : storeRead (assocWrite st p v) q = storeRead st q := by
  simp [storeRead, assocRead, lookup_assocWrite_ne st p q v h]

theorem save_added_eq (today : Date) (fm : Option FeedMeta) (entries : List Entry)
    (st : Store) :
    (save_full_news_of_today today fm entries st).added =
      (archive_loop (entries.map (build_full_record · (feed_lang_of fm)))
        (storeRead st (daily_path today))
        (seen_ids (storeRead st (daily_path today)))
        (seen_urls (storeRead st (daily_path today)))).1 := by
  unfold save_full_news_of_today
  simp only []
  split <;> rfl

theorem save_path_eq (today : Date) (fm : Option FeedMeta) (entries : List Entry)
    (st : Store) :
    (save_full_news_of_today today fm entries st).path = daily_path today := by
  unfold save_full_news_of_today
  simp only []
  split <;> rfl

theorem save_partition_eq (today : Date) (fm : Option FeedMeta) (entries : List Entry)
    (st : Store) :
    storeRead (save_full_news_of_today today fm entries st).store (daily_path today) =
      storeRead st (daily_path today) ++
        (save_full_news_of_today today fm entries st).added := by
  rw [save_added_eq]
  unfold save_full_news_of_today
  simp only []
  split
  · rename_i h
    rw [List.isEmpty_iff] at h
    simp [h]
  · simp only
    rw [storeRead_assocWrite_self, archive_loop_snd]

theorem save_frame (today : Date) (fm : Option FeedMeta) (entries : List Entry)
    (st : Store) (q : String) (h : q ≠ daily_path today) :
    storeRead (save_full_news_of_today today fm entries st).store q = storeRead st q := by
  unfold save_full_news_of_today
  simp only []
  split
  · rfl
  · simp only
    exact storeRead_assocWrite_ne st (daily_path today) q _ h

theorem mem_seen_ids {x : Record} {l : List Record} (hx : x ∈ l) (ht : truthyO x.id) :
    strOf x.id ∈ seen_ids l := by
  simp only [seen_ids, List.mem_map]
  exact ⟨x, List.mem_filter.mpr ⟨hx, ht⟩, rfl⟩

theorem mem_seen_urls {x : Record} {l : List Record} (hx : x ∈ l) (ht : truthyS x.url) :
    x.url ∈ seen_urls l := by
  simp only [seen_urls, List.mem_map]
  exact ⟨x, List.mem_filter.mpr ⟨hx, ht⟩, rfl⟩

/-- C9: every call to the daily-archive append keeps the existing partition
contents as an unchanged prefix, appends the genuinely-new records after them,
and the added list is a sublist (order-preserving selection) of the records
built from the input entries. -/
theorem C9_archive_preserves_prefix_and_input_order (today : Date)
    (fm : Option FeedMeta) (entries : List Entry) (st : Store) :
    storeRead (save_full_news_of_today today fm entries st).store (daily_path today) =
      storeRead st (daily_path today) ++
        (save_full_news_of_today today fm entries st).added ∧
    List.Sublist (save_full_news_of_today today fm entries st).added
      (entries.map (build_full_record · (feed_lang_of fm))) := by
  refine ⟨save_partition_eq today fm entries st, ?_⟩
  rw [save_added_eq]
  exact archive_loop_sublist _ _ _ _

/-- C1: the daily-archive append returns exactly the newly appended records:
a returned record's truthy id (resp. truthy url) matches no record already in
the partition; and concretely, submitting 3 distinct-id entries to an empty
partition returns all 3, re-submitting them returns `[]` with the partition
still holding exactly 3 records. -/
theorem C1_archive_returns_only_new :
    (∀ (today : Date) (fm : Option FeedMeta) (entries : List Entry) (st : Store)
      (r : Record), r ∈ (save_full_news_of_today today fm entries st).added →
        ∀ x ∈ storeRead st (daily_path today),
          (truthyO r.id → x.id ≠ r.id) ∧ (truthyS r.url → x.url ≠ r.url)) ∧
    (save_full_news_of_today sampleDate none
      [sampleEntryA, sampleEntryB, sampleEntryC] []).added.length = 3 ∧
    (save_full_news_of_today sampleDate none
      [sampleEntryA, sampleEntryB, sampleEntryC]
      (save_full_news_of_today sampleDate none
        [sampleEntryA, sampleEntryB, sampleEntryC] []).store).added = [] ∧
    (storeRead (save_full_news_of_today sampleDate none
      [sampleEntryA, sampleEntryB, sampleEntryC]
      (save_full_news_of_today sampleDate none
        [sampleEntryA, sampleEntryB, sampleEntryC] []).store).store
      (daily_path sampleDate)).length = 3 := by
  refine ⟨?_, by decide, by decide, by decide⟩
  intro today fm entries st r hr x hx
  rw [save_added_eq] at hr
  have hf := archive_loop_fresh _ _ _ _ r hr
  constructor
  · intro hid heq
    have hxid : truthyO x.id = true := by rw [heq]; exact hid
    have : strOf x.id ∈ seen_ids (storeRead st (daily_path today)) :=
      mem_seen_ids hx hxid
    rw [heq] at this
    exact hf.1 hid this
  · intro hurl heq
    have hxurl : truthyS x.url = true := by rw [heq]; exact hurl
    have : x.url ∈ seen_urls (storeRead st (daily_path today)) :=
      mem_seen_urls hx hxurl
    rw [heq] at this
    exact hf.2 hurl this

theorem C1_archive_returns_only_new_witness :
    (truthyO sampleRecordB.id → sampleRecordA.id ≠ sampleRecordB.id) ∧
    (truthyS sampleRecordB.url → sampleRecordA.url ≠ sampleRecordB.url) :=
  C1_archive_returns_only_new.1 sampleDate none [sampleEntryB] sampleStoreA
    sampleRecordB (by decide) sampleRecordA (by decide)

/-- C4 (amended): the day-partition key is derived from the processing time
(`now_local()`) alone — the archive writes at `daily_path today` and leaves
every other partition unchanged, regardless of the entries' `published_at`
timestamps. -/
theorem C4_partition_key_from_processing_time (today : Date) (fm : Option FeedMeta)
    (entries : List Entry) (st : Store) :
    (save_full_news_of_today today fm entries st).path = daily_path today ∧
    ∀ q, q ≠ daily_path today →
      storeRead (save_full_news_of_today today fm entries st).store q = storeRead st q :=
  ⟨save_path_eq today fm entries st, fun q hq => save_frame today fm entries st q hq⟩

theorem C4_partition_key_witness :
    (save_full_news_of_today sampleDate none [samplePublished8] []).path =
      daily_path sampleDate ∧
    storeRead (save_full_news_of_today sampleDate none [samplePublished8] []).store
      (daily_path ⟨2025, 11, 8⟩) = storeRead [] (daily_path ⟨2025, 11, 8⟩) :=
  ⟨(C4_partition_key_from_processing_time sampleDate none [samplePublished8] []).1,
    (C4_partition_key_from_processing_time sampleDate none [samplePublished8] []).2
      (daily_path ⟨2025, 11, 8⟩) (by decide)⟩

/-- C4 counterexample: one fetch batch whose two entries carry available
`published_at` timestamps on two different local calendar days produces records
in a single day partition — the one for the processing date — and the partition
for the published day is never created, contradicting the claim that the
partition key is derived from `published_at` when available. -/
theorem C4_counterexample :
    (save_full_news_of_today sampleDate none
      [samplePublished8, samplePublished9] []).added.map Record.published =
      [some "2025-11-08T23:30:00+01:00", some "2025-11-09T00:30:00+01:00"] ∧
    storeRead (save_full_news_of_today sampleDate none
      [samplePublished8, samplePublished9] []).store (daily_path sampleDate) =
      (save_full_news_of_today sampleDate none
        [samplePublished8, samplePublished9] []).added ∧
    (save_full_news_of_today sampleDate none
      [samplePublished8, samplePublished9] []).store.map Prod.fst =
      [daily_path sampleDate] ∧
    storeRead (save_full_news_of_today sampleDate none
      [samplePublished8, samplePublished9] []).store (daily_path ⟨2025, 11, 8⟩) = [] := by
  decide

/-! Dedup-invariant machinery for C2. -/

theorem seen_ids_append (l₁ l₂ : List Record) :
    seen_ids (l₁ ++ l₂) = seen_ids l₁ ++ seen_ids l₂ := by
  simp [seen_ids, List.filter_append]

theorem seen_urls_append (l₁ l₂ : List Record) :
    seen_urls (l₁ ++ l₂) = seen_urls l₁ ++ seen_urls l₂ := by
  simp [seen_urls, List.filter_append]

theorem seen_ids_single (r : Record) :
    seen_ids [r] = if truthyO r.id then [strOf r.id] else [] := by
  by_cases ht : truthyO r.id <;> simp [seen_ids, ht]

theorem seen_urls_single (r : Record) :
    seen_urls [r] = if truthyS r.url then [r.url] else [] := by
  by_cases ht : truthyS r.url <;> simp [seen_urls, ht]

theorem archive_loop_nodup (recs : List Record) :
    ∀ existing sids surls,
      (∀ a, a ∈ sids ↔ a ∈ seen_ids existing) →
      (∀ a, a ∈ surls ↔ a ∈ seen_urls existing) →
      (seen_ids existing).Nodup → (seen_urls existing).Nodup →
      (seen_ids (archive_loop recs existing sids surls).2).Nodup ∧
      (seen_urls (archive_loop recs existing sids surls).2).Nodup := by
  induction recs with
  | nil =>
    intro existing sids surls _ _ hni hnu
    exact ⟨hni, hnu⟩
  | cons rec rest ih =>
    intro existing sids surls hids hurls hni hnu
    by_cases h : ((truthyO rec.id && sids.contains (strOf rec.id)) ||
        (truthyS rec.url && surls.contains rec.url)) = true
    · rw [archive_loop, if_pos h]
      exact ih existing sids surls hids hurls hni hnu
    · rw [archive_loop, if_neg h]
      simp only [Bool.or_eq_true, Bool.and_eq_true, not_or, not_and,
        contains_iff_mem, Bool.not_eq_true] at h
      have hidfresh : truthyO rec.id = true → strOf rec.id ∉ seen_ids existing := by
        intro ht hmem
        exact h.1 ht ((hids _).mpr hmem)
      have hurlfresh : truthyS rec.url = true → rec.url ∉ seen_urls existing := by
        intro ht hmem
        exact h.2 ht ((hurls _).mpr hmem)
      simp only
      apply ih (existing ++ [rec])
      · intro a
        by_cases ht : truthyO rec.id <;>
          simp [ht, seen_ids_append, seen_ids_single, hids a]
      · intro a
        by_cases ht : truthyS rec.url <;>
          simp [ht, seen_urls_append, seen_urls_single, hurls a]
      · rw [seen_ids_append, seen_ids_single]
        by_cases ht : truthyO rec.id
        · simp only [ht, if_pos]
          exact List.Nodup.append hni (List.nodup_singleton _)
            (by simpa using hidfresh ht)
        · simpa [ht] using hni
      · rw [seen_urls_append, seen_urls_single]
        by_cases ht : truthyS rec.url
        · simp only [ht, if_pos]
          exact List.Nodup.append hnu (List.nodup_singleton _)
            (by simpa using hurlfresh ht)
        · simpa [ht] using hnu

theorem nodup_seen_to_claim :
    ∀ l : List Record, (seen_ids l).Nodup → (seen_urls l).Nodup → no_dup_claim l := by
  intro l
  induction l with
  | nil => intro _ _; exact List.Pairwise.nil
  | cons a tl ih =>
    intro hni hnu
    have hni' : (seen_ids tl).Nodup ∧ (truthyO a.id → strOf a.id ∉ seen_ids tl) := by
      rw [show a :: tl = [a] ++ tl by rfl, seen_ids_append, seen_ids_single] at hni
      by_cases ht : truthyO a.id
      · rw [if_pos ht] at hni
        rw [List.singleton_append, List.nodup_cons] at hni
        exact ⟨hni.2, fun _ => hni.1⟩
      · rw [if_neg ht] at hni
        exact ⟨by simpa using hni, fun hc => absurd hc (by simp [ht])⟩
    have hnu' : (seen_urls tl).Nodup ∧ (truthyS a.url → a.url ∉ seen_urls tl) := by
      rw [show a :: tl = [a] ++ tl by rfl, seen_urls_append, seen_urls_single] at hnu
      by_cases ht : truthyS a.url
      · rw [if_pos ht] at hnu
        rw [List.singleton_append, List.nodup_cons] at hnu
        exact ⟨hnu.2, fun _ => hnu.1⟩
      · rw [if_neg ht] at hnu
        exact ⟨by simpa using hnu, fun hc => absurd hc (by simp [ht])⟩
    refine List.Pairwise.cons ?_ (ih hni'.1 hnu'.1)
    intro b hb
    constructor
    · intro hta htb heq
      exact hni'.2 hta (heq ▸ mem_seen_ids hb htb)
    · intro _ _ hua hub heq
      exact hnu'.2 hua (heq ▸ mem_seen_urls hb hub)

theorem save_inv_preserved (today : Date) (fm : Option FeedMeta)
    (entries : List Entry) (st : Store)
    (hst : ∀ p, (seen_ids (storeRead st p)).Nodup ∧ (seen_urls (storeRead st p)).Nodup) :
    ∀ p, (seen_ids (storeRead (save_full_news_of_today today fm entries st).store p)).Nodup ∧
      (seen_urls (storeRead (save_full_news_of_today today fm entries st).store p)).Nodup := by
  intro p
  by_cases hp : p = daily_path today
  · subst hp
    rw [save_partition_eq, save_added_eq, ← archive_loop_snd]
    exact archive_loop_nodup _ _ _ _ (fun a => Iff.rfl) (fun a => Iff.rfl)
      (hst (daily_path today)).1 (hst (daily_path today)).2
  · rw [save_frame today fm entries st p hp]
    exact hst p

theorem runArchive_inv (cycles : List (Date × Option FeedMeta × List Entry)) :
    ∀ st : Store,
      (∀ p, (seen_ids (storeRead st p)).Nodup ∧ (seen_urls (storeRead st p)).Nodup) →
      ∀ p, (seen_ids (storeRead (runArchive cycles st) p)).Nodup ∧
        (seen_urls (storeRead (runArchive cycles st) p)).Nodup := by
  induction cycles with
  | nil => intro st hst p; exact hst p
  | cons c cs ih =>
    intro st hst p
    exact ih _ (save_inv_preserved c.1 c.2.1 c.2.2 st hst) p

/-- C2: across any number of archive cycles starting from an empty store, no
day partition ever holds two records with the same truthy id, nor two records
both lacking a truthy id with the same truthy url. -/
theorem C2_no_duplicate_archiving
    (cycles : List (Date × Option FeedMeta × List Entry)) (p : String) :
    no_dup_claim (storeRead (runArchive cycles []) p) := by
  have base : ∀ q, (seen_ids (storeRead ([] : Store) q)).Nodup ∧
      (seen_urls (storeRead ([] : Store) q)).Nodup := by
    intro q
    constructor <;> simp [storeRead, assocRead, seen_ids, seen_urls]
  have h := runArchive_inv cycles [] base p
  exact nodup_seen_to_claim _ h.1 h.2

/-! Manifest-rebuild lemmas (C7). -/

theorem insertionSort_congr_perm (l₁ l₂ : List String) (h : l₁.Perm l₂) :
    List.insertionSort strLeP l₁ = List.insertionSort strLeP l₂ :=
  List.eq_of_perm_of_sorted
    ((List.perm_insertionSort strLeP l₁).trans
      (h.trans (List.perm_insertionSort strLeP l₂).symm))
    (List.sorted_insertionSort strLeP l₁) (List.sorted_insertionSort strLeP l₂)

theorem insertionSort_filter_comm (l : List String) (p : String → Bool) :
    (List.insertionSort strLeP l).filter p = List.insertionSort strLeP (l.filter p) :=
  List.eq_of_perm_of_sorted
    (((List.perm_insertionSort strLeP l).filter p).trans
      (List.perm_insertionSort strLeP (l.filter p)).symm)
    ((List.sorted_insertionSort strLeP l).filter p)
    (List.sorted_insertionSort strLeP _)

theorem foldl_filter_skip {β : Type} (f : β → String → β) (p : String → Bool)
    (hf : ∀ acc x, p x = false → f acc x = acc) :
    ∀ (l : List String) (acc : β), l.foldl f acc = (l.filter p).foldl f acc := by
  intro l
  induction l with
  | nil => intro acc; rfl
  | cons hd tl ih =>
    intro acc
    by_cases hp : p hd = true
    · rw [List.foldl_cons, List.filter_cons_of_pos hp, List.foldl_cons, ih]
    · have hp' : p hd = false := by simpa using hp
      rw [List.foldl_cons, hf acc hd hp', List.filter_cons_of_neg (by simp [hp']), ih]

theorem daysFold_filter (y m : Nat) (l : List String) :
    daysFold y m l =
      daysFold y m (l.filter fun n => !(n == "month_manifest.json")) := by
  unfold daysFold
  apply foldl_filter_skip
  intro acc x hx
  have : x = "month_manifest.json" := by
    simpa using hx
  simp [this]

/-- The month manifest is a function of the sorted partition names with the
manifest's own file name removed. -/
theorem update_month_manifest_canonical (y m : Nat) (names : List String) :
    update_month_manifest y m names =
      ⟨natToDec y, pad2 m,
        List.insertionSort pairKeyGe (daysFold y m
          (List.insertionSort strLeP ((names.filter fun n => strEndsWith n ".json").filter
            fun n => !(n == "month_manifest.json"))))⟩ := by
  unfold update_month_manifest
  simp only []
  rw [daysFold_filter, insertionSort_filter_comm]

/-- C7: rebuilding the month and year manifests is a pure function of the set
of files present — the output is invariant under any reordering of the
directory listing, and re-running the rebuild after its own output file has
appeared in the directory yields identical manifests. -/
theorem C7_manifest_rebuild_idempotent (y m : Nat)
    (names names' mnames mnames' : List String)
    (hp : names.Perm names') (hq : mnames.Perm mnames') :
    update_month_manifest y m names = update_month_manifest y m names' ∧
    update_month_manifest y m ("month_manifest.json" :: names) =
      update_month_manifest y m names ∧
    update_year_manifest y mnames = update_year_manifest y mnames' ∧
    update_year_manifest y ("year_manifest.json" :: mnames) =
      update_year_manifest y mnames := by
  refine ⟨?_, ?_, ?_, ?_⟩
  · rw [update_month_manifest_canonical, update_month_manifest_canonical]
    rw [insertionSort_congr_perm _ _ ((hp.filter _).filter _)]
  · rw [update_month_manifest_canonical y m ("month_manifest.json" :: names),
      update_month_manifest_canonical y m names]
    have h1 : ("month_manifest.json" :: names).filter (fun n => strEndsWith n ".json") =
        "month_manifest.json" :: names.filter (fun n => strEndsWith n ".json") := by
      rw [List.filter_cons_of_pos (by decide)]
    rw [h1, List.filter_cons_of_neg (by decide)]
  · unfold update_year_manifest
    rw [insertionSort_congr_perm _ _ (hq.filter _)]
  · unfold update_year_manifest
    rw [List.filter_cons_of_neg (by decide)]

theorem C7_manifest_rebuild_witness :
    update_month_manifest 2025 11 ["09-11.json", "08-11.json"] =
      update_month_manifest 2025 11 ["08-11.json", "09-11.json"] ∧
    update_month_manifest 2025 11 ("month_manifest.json" :: ["09-11.json", "08-11.json"]) =
      update_month_manifest 2025 11 ["09-11.json", "08-11.json"] ∧
    update_year_manifest 2025 ["11", "10"] = update_year_manifest 2025 ["10", "11"] ∧
    update_year_manifest 2025 ("year_manifest.json" :: ["11", "10"]) =
      update_year_manifest 2025 ["11", "10"] :=
  C7_manifest_rebuild_idempotent 2025 11 ["09-11.json", "08-11.json"]
    ["08-11.json", "09-11.json"] ["11", "10"] ["10", "11"] (by decide) (by decide)

/-! Global-index lemmas (C3, C5, C10). -/

theorem string_append_inj_mid (a b pre suf : String)
    (h : pre ++ a ++ suf = pre ++ b ++ suf) : a = b := by
  have hd : pre.data ++ a.data ++ suf.data = pre.data ++ b.data ++ suf.data := by
    have := congrArg String.data h
    simpa [String.data_append] using this
  have hd' : pre.data ++ (a.data ++ suf.data) = pre.data ++ (b.data ++ suf.data) := by
    simpa [List.append_assoc] using hd
  have h1 : a.data ++ suf.data = b.data ++ suf.data :=
    List.append_cancel_left hd' 
  have h2 : a.data = b.data := List.append_cancel_right h1
  cases a; cases b
  exact congrArg String.mk h2

theorem index_file_name_injective : Function.Injective index_file_name := by
  intro i j h
  exact natToDec_injective (string_append_inj_mid _ _ "index_" ".json" h)

theorem filesOfFrom_map_fst (i : Nat) (cs : List (List SlimRecord)) :
    (pagesOfFrom i cs).map Prod.fst = filesOfFrom i cs := by
  induction cs generalizing i with
  | nil => rfl
  | cons c cs ih => simp [pagesOfFrom, filesOfFrom, ih]

theorem filesOfFrom_length (i : Nat) (cs : List (List SlimRecord)) :
    (filesOfFrom i cs).length = cs.length := by
  induction cs generalizing i with
  | nil => rfl
  | cons c cs ih => simp [filesOfFrom, ih]

theorem mem_filesOfFrom_bounds (i j : Nat) (cs : List (List SlimRecord))
    (h : index_file_name j ∈ filesOfFrom i cs) : i + 1 ≤ j ∧ j ≤ i + cs.length := by
  induction cs generalizing i with
  | nil => simp [filesOfFrom] at h
  | cons c cs ih =>
    rw [filesOfFrom] at h
    rcases List.mem_cons.mp h with heq | hmem
    · have := index_file_name_injective heq
      simp only [List.length_cons]
      omega
    · have := ih (i + 1) hmem
      simp only [List.length_cons]
      omega

theorem filesOfFrom_append_single (i : Nat) (cs : List (List SlimRecord))
    (v : List SlimRecord) :
    filesOfFrom i (cs ++ [v]) = filesOfFrom i cs ++ [index_file_name (i + cs.length + 1)] := by
  induction cs generalizing i with
  | nil => simp [filesOfFrom]
  | cons c cs ih =>
    have e : i + (c :: cs).length + 1 = i + 1 + cs.length + 1 := by
      simp only [List.length_cons]
      omega
    rw [e, List.cons_append]
    simp only [filesOfFrom]
    rw [ih]
    simp

theorem pagesOfFrom_append_single (i : Nat) (cs : List (List SlimRecord))
    (v : List SlimRecord) :
    pagesOfFrom i (cs ++ [v]) =
      pagesOfFrom i cs ++ [(index_file_name (i + cs.length + 1), v)] := by
  induction cs generalizing i with
  | nil => simp [pagesOfFrom]
  | cons c cs ih =>
    have e : i + (c :: cs).length + 1 = i + 1 + cs.length + 1 := by
      simp only [List.length_cons]
      omega
    rw [e, List.cons_append]
    simp only [pagesOfFrom]
    rw [ih]
    simp

theorem filesOfFrom_getLastD (i : Nat) (cs : List (List SlimRecord)) (c : List SlimRecord) :
    (filesOfFrom i (cs ++ [c])).getLastD "" = index_file_name (i + cs.length + 1) := by
  rw [filesOfFrom_append_single]
  simp

theorem lookup_pagesOfFrom_last (i : Nat) (cs : List (List SlimRecord))
    (c : List SlimRecord) :
    (pagesOfFrom i (cs ++ [c])).lookup (index_file_name (i + cs.length + 1)) = some c := by
  rw [pagesOfFrom_append_single]
  rw [lookup_append_of_not_mem]
  · exact lookup_cons_self _ _ _
  · rw [filesOfFrom_map_fst]
    intro hmem
    have := mem_filesOfFrom_bounds _ _ _ hmem
    omega

theorem assocWrite_pagesOfFrom_last (i : Nat) (cs : List (List SlimRecord))
    (c v : List SlimRecord) :
    assocWrite (pagesOfFrom i (cs ++ [c])) (index_file_name (i + cs.length + 1)) v =
      pagesOfFrom i (cs ++ [v]) := by
  induction cs generalizing i with
  | nil =>
    simp [pagesOfFrom, assocWrite]
  | cons hd tl ih =>
    have e : i + (hd :: tl).length + 1 = i + 1 + tl.length + 1 := by
      simp only [List.length_cons]
      omega
    rw [e, List.cons_append]
    simp only [pagesOfFrom, assocWrite]
    rw [if_neg (fun heq => by have := index_file_name_injective heq; omega)]
    rw [ih (i + 1)]
    rfl

theorem assocWrite_pagesOfFrom_fresh (i : Nat) (cs : List (List SlimRecord))
    (v : List SlimRecord) :
    assocWrite (pagesOfFrom i cs) (index_file_name (i + cs.length + 1)) v =
      pagesOfFrom i (cs ++ [v]) := by
  rw [assocWrite_of_not_mem, pagesOfFrom_append_single]
  rw [filesOfFrom_map_fst]
  intro hmem
  have := mem_filesOfFrom_bounds _ _ _ hmem
  omega

theorem pagesOfFrom_sum (i : Nat) (cs : List (List SlimRecord)) :
    ((pagesOfFrom i cs).map fun p => p.2.length).sum = (cs.map List.length).sum := by
  induction cs generalizing i with
  | nil => rfl
  | cons c cs ih => simp [pagesOfFrom, ih]

theorem pagesOfFrom_dropLast (i : Nat) (cs : List (List SlimRecord)) :
    (pagesOfFrom i cs).dropLast = pagesOfFrom i cs.dropLast := by
  induction cs generalizing i with
  | nil => rfl
  | cons c cs ih =>
    cases cs with
    | nil => rfl
    | cons c' cs' =>
      show ((index_file_name (i + 1), c) :: (index_file_name (i + 1 + 1), c') ::
          pagesOfFrom (i + 1 + 1) cs').dropLast =
        pagesOfFrom i (c :: (c' :: cs').dropLast)
      rw [show ((index_file_name (i + 1), c) :: (index_file_name (i + 1 + 1), c') ::
          pagesOfFrom (i + 1 + 1) cs').dropLast =
          (index_file_name (i + 1), c) :: ((index_file_name (i + 1 + 1), c') ::
            pagesOfFrom (i + 1 + 1) cs').dropLast from rfl]
      rw [show pagesOfFrom i (c :: (c' :: cs').dropLast) =
          (index_file_name (i + 1), c) :: pagesOfFrom (i + 1) ((c' :: cs').dropLast) from rfl]
      congr 1
      exact ih (i + 1)

theorem mem_pagesOfFrom_snd (i : Nat) (cs : List (List SlimRecord))
    (pr : String × List SlimRecord) (h : pr ∈ pagesOfFrom i cs) : pr.2 ∈ cs := by
  induction cs generalizing i with
  | nil => simp [pagesOfFrom] at h
  | cons c cs ih =>
    rw [pagesOfFrom] at h
    rcases List.mem_cons.mp h with heq | hmem
    · subst heq; simp
    · exact List.mem_cons_of_mem _ (ih (i + 1) hmem)

theorem gi_append_records_init (now : String) (b : List SlimRecord) (hb : b ≠ []) :
    gi_append_records now b gi_init =
      ⟨giOf [b] (some ⟨b.length, b.length, now⟩),
        ["global_index/" ++ index_file_name 1, "global_index/" ++ index_file_name 1,
          "global_index/pagination.json", "global_index/stats.json"]⟩ := by
  have hbe : b.isEmpty = false := by
    cases b with
    | nil => exact absurd rfl hb
    | cons x xs => rfl
  rw [gi_append_records]
  rw [if_neg (by simp [hbe])]
  simp [gi_init, gi_load_pagination, giOf, pagesOfFrom, filesOfFrom,
    assocWrite, assocRead, List.lookup, GLOBAL_PAGE_SIZE]

theorem gi_append_records_giOf_rotate (now : String) (b : List SlimRecord) (hb : b ≠ [])
    (cs : List (List SlimRecord)) (c : List SlimRecord) (stats : Option Stats)
    (hc : GLOBAL_PAGE_SIZE ≤ c.length) :
    gi_append_records now b (giOf (cs ++ [c]) stats) =
      ⟨giOf (cs ++ [c] ++ [b])
          (some ⟨((cs ++ [c]).map List.length).sum + b.length, b.length, now⟩),
        ["global_index/" ++ index_file_name (cs.length + 2),
          "global_index/" ++ index_file_name (cs.length + 2),
          "global_index/pagination.json", "global_index/stats.json"]⟩ := by
  have hbe : b.isEmpty = false := by
    cases b with
    | nil => exact absurd rfl hb
    | cons x xs => rfl
  have hlast : (filesOfFrom 0 (cs ++ [c])).getLastD "" = index_file_name (cs.length + 1) := by
    have := filesOfFrom_getLastD 0 cs c
    simpa using this
  have hlook : (pagesOfFrom 0 (cs ++ [c])).lookup (index_file_name (cs.length + 1)) =
      some c := by
    have := lookup_pagesOfFrom_last 0 cs c
    simpa using this
  have hFne : (filesOfFrom 0 (cs ++ [c])).isEmpty = false := by
    rw [filesOfFrom_append_single]
    simp
  have hFlen : (filesOfFrom 0 (cs ++ [c])).length = cs.length + 1 := by
    rw [filesOfFrom_length]
    simp
  have hfiles : filesOfFrom 0 (cs ++ [c] ++ [b]) =
      filesOfFrom 0 (cs ++ [c]) ++ [index_file_name (cs.length + 2)] := by
    have := filesOfFrom_append_single 0 (cs ++ [c]) b
    simpa [Nat.add_assoc] using this
  have hwrfresh : assocWrite (pagesOfFrom 0 (cs ++ [c])) (index_file_name (cs.length + 2)) [] =
      pagesOfFrom 0 (cs ++ [c] ++ [[]]) := by
    have := assocWrite_pagesOfFrom_fresh 0 (cs ++ [c]) []
    simpa [Nat.add_assoc] using this
  have hwrlast : assocWrite (pagesOfFrom 0 (cs ++ [c] ++ [[]]))
      (index_file_name (cs.length + 2)) b = pagesOfFrom 0 (cs ++ [c] ++ [b]) := by
    have := assocWrite_pagesOfFrom_last 0 (cs ++ [c]) ([] : List SlimRecord) b
    simpa [Nat.add_assoc] using this
  have hsum : ((cs ++ [c] ++ [b]).map List.length).sum =
      ((cs ++ [c]).map List.length).sum + b.length := by
    simp
    omega
  rw [gi_append_records]
  rw [if_neg (by simp [hbe])]
  simp only [gi_load_pagination, giOf, hFne, Bool.false_eq_true, if_false,
    hlast, hlook, Option.isNone_some, if_false, GLOBAL_PAGE_SIZE]
  simp only [assocRead, hlook, hFlen]
  have hc' : 500 ≤ c.length := hc
  rw [if_pos hc']
  simp only [List.nil_append, show cs.length + 1 + 1 = cs.length + 2 from rfl,
    hwrfresh, hwrlast, hfiles, hsum]
  rfl

theorem gi_append_records_giOf_extend (now : String) (b : List SlimRecord) (hb : b ≠ [])
    (cs : List (List SlimRecord)) (c : List SlimRecord) (stats : Option Stats)
    (hc : c.length < GLOBAL_PAGE_SIZE) :
    gi_append_records now b (giOf (cs ++ [c]) stats) =
      ⟨giOf (cs ++ [c ++ b])
          (some ⟨((cs ++ [c]).map List.length).sum + b.length, b.length, now⟩),
        ["global_index/" ++ index_file_name (cs.length + 1),
          "global_index/pagination.json", "global_index/stats.json"]⟩ := by
  have hbe : b.isEmpty = false := by
    cases b with
    | nil => exact absurd rfl hb
    | cons x xs => rfl
  have hlast : (filesOfFrom 0 (cs ++ [c])).getLastD "" = index_file_name (cs.length + 1) := by
    have := filesOfFrom_getLastD 0 cs c
    simpa using this
  have hlook : (pagesOfFrom 0 (cs ++ [c])).lookup (index_file_name (cs.length + 1)) =
      some c := by
    have := lookup_pagesOfFrom_last 0 cs c
    simpa using this
  have hFne : (filesOfFrom 0 (cs ++ [c])).isEmpty = false := by
    rw [filesOfFrom_append_single]
    simp
  have hwrlast : assocWrite (pagesOfFrom 0 (cs ++ [c]))
      (index_file_name (cs.length + 1)) (c ++ b) = pagesOfFrom 0 (cs ++ [c ++ b]) := by
    have := assocWrite_pagesOfFrom_last 0 cs c (c ++ b)
    simpa using this
  have hfiles : filesOfFrom 0 (cs ++ [c ++ b]) = filesOfFrom 0 (cs ++ [c]) := by
    rw [filesOfFrom_append_single, filesOfFrom_append_single]
  have hsum : ((cs ++ [c ++ b]).map List.length).sum =
      ((cs ++ [c]).map List.length).sum + b.length := by
    simp
    omega
  have hc' : ¬ 500 ≤ c.length := by
    simpa [GLOBAL_PAGE_SIZE] using Nat.not_le_of_lt hc
  rw [gi_append_records]
  rw [if_neg (by simp [hbe])]
  simp only [gi_load_pagination, giOf, hFne, Bool.false_eq_true, if_false,
    hlast, hlook, Option.isNone_some, GLOBAL_PAGE_SIZE]
  simp only [assocRead, hlook]
  rw [if_neg hc']
  simp only [List.nil_append, hwrlast, hfiles, hsum]

theorem gi_append_records_empty (now : String) (st : GIState) :
    gi_append_records now [] st = ⟨st, []⟩ := rfl

theorem giShape_preserved (now : String) (b : List SlimRecord) (st : GIState)
    (h : giShape st) : giShape (gi_append_records now b st).state := by
  by_cases hb : b = []
  · subst hb
    rw [gi_append_records_empty]
    exact h
  · rcases h with hinit | ⟨cs, stats, hne, hinv, hst⟩
    · subst hinit
      rw [gi_append_records_init now b hb]
      refine Or.inr ⟨[b], some ⟨b.length, b.length, now⟩, by simp, ?_, rfl⟩
      intro p hp
      simp at hp
    · subst hst
      rcases List.eq_nil_or_concat cs with rfl | ⟨cs₀, c, rfl⟩
      · exact absurd rfl hne
      · simp only [List.concat_eq_append] at hinv ⊢
        by_cases hc : GLOBAL_PAGE_SIZE ≤ c.length
        · rw [gi_append_records_giOf_rotate now b hb cs₀ c stats hc]
          refine Or.inr ⟨cs₀ ++ [c] ++ [b], _, by simp, ?_, rfl⟩
          intro p hp
          rw [List.dropLast_concat] at hp
          rcases List.mem_append.mp hp with hp₀ | hp₁
          · exact hinv p (by rw [List.dropLast_concat]; exact hp₀)
          · rw [List.mem_singleton] at hp₁
            subst hp₁
            exact hc
        · rw [gi_append_records_giOf_extend now b hb cs₀ c stats (Nat.lt_of_not_le hc)]
          refine Or.inr ⟨cs₀ ++ [c ++ b], _, by simp, ?_, rfl⟩
          intro p hp
          rw [List.dropLast_concat] at hp
          exact hinv p (by rw [List.dropLast_concat]; exact hp)

theorem giRun_shape (steps : List (String × List SlimRecord)) : giShape (giRun steps) := by
  suffices h : ∀ st, giShape st →
      giShape (steps.foldl (fun s c => (gi_append_records c.1 c.2 s).state) st) by
    exact h gi_init (Or.inl rfl)
  induction steps with
  | nil => intro st h; exact h
  | cons hd tl ih =>
    intro st h
    exact ih _ (giShape_preserved hd.1 hd.2 st h)

/-- C10: appending an empty batch to the global index is a complete no-op:
the state (pages, pagination directory and stats snapshot) is returned
untouched and no file is written, so `last_update` / `added_today` are not
overwritten on a cycle that archived nothing. -/
theorem C10_gi_empty_batch_noop (now : String) (st : GIState) :
    (gi_append_records now [] st).state = st ∧
    (gi_append_records now [] st).writes = [] :=
  ⟨rfl, rfl⟩

/-- C5: after any sequence of index appends from the empty directory, the
stored `total_articles` equals the sum of the lengths of all index pages; and
for every state and batch, a single append never decreases `total_articles`. -/
theorem C5_pagination_total_invariant :
    (∀ steps : List (String × List SlimRecord),
      (gi_load_pagination (giRun steps)).total_articles =
        ((giRun steps).pages.map fun p => p.2.length).sum) ∧
    (∀ (now : String) (b : List SlimRecord) (st : GIState),
      (gi_load_pagination st).total_articles ≤
        (gi_load_pagination (gi_append_records now b st).state).total_articles) := by
  constructor
  · intro steps
    rcases giRun_shape steps with h | ⟨cs, stats, _, _, h⟩
    · rw [h]
      rfl
    · rw [h]
      simp [giOf, gi_load_pagination, pagesOfFrom_sum]
  · intro now b st
    by_cases hb : b = []
    · subst hb
      rw [gi_append_records_empty]
    · have hbe : b.isEmpty = false := by
        cases b with
        | nil => exact absurd rfl hb
        | cons x xs => rfl
      rw [gi_append_records]
      rw [if_neg (by simp [hbe])]
      simp only [gi_load_pagination]
      exact Nat.le_add_right _ _

set_option maxRecDepth 4000 in
/-- C3 (amended): rotation happens only when the tail page already holds at
least `GLOBAL_PAGE_SIZE` items before the whole batch is appended, so every
page except the last holds at least 500 items but a page may exceed 500; in
particular appending 501 slim records to an empty index yields a single page
holding all 501 items, with `total_item_count = 501`. -/
theorem C3_page_capacity_amended :
    (∀ steps : List (String × List SlimRecord),
      ∀ pr ∈ (giRun steps).pages.dropLast, GLOBAL_PAGE_SIZE ≤ pr.2.length) ∧
    (gi_load_pagination (gi_append_records "now" (List.replicate 501 sampleSlim)
      gi_init).state).files = ["index_1.json"] ∧
    (assocRead (gi_append_records "now" (List.replicate 501 sampleSlim)
      gi_init).state.pages "index_1.json" []).length = 501 ∧
    (gi_load_pagination (gi_append_records "now" (List.replicate 501 sampleSlim)
      gi_init).state).total_articles = 501 := by
  refine ⟨?_, by decide, by decide, by decide⟩
  intro steps pr hpr
  rcases giRun_shape steps with h | ⟨cs, stats, _, hinv, h⟩
  · rw [h] at hpr
    simp [gi_init] at hpr
  · rw [h] at hpr
    simp only [giOf] at hpr
    rw [pagesOfFrom_dropLast] at hpr
    exact hinv pr.2 (mem_pagesOfFrom_snd 0 cs.dropLast pr hpr)

set_option maxRecDepth 4000 in
theorem C3_witness :
    GLOBAL_PAGE_SIZE ≤ (("index_1.json", List.replicate 501 sampleSlim) :
      String × List SlimRecord).2.length :=
  C3_page_capacity_amended.1
    [("t1", List.replicate 501 sampleSlim), ("t2", [sampleSlim])]
    ("index_1.json", List.replicate 501 sampleSlim) (by decide)

set_option maxRecDepth 4000 in
/-- C3 counterexample: appending 501 slim records to the empty index in one
call produces a pagination directory listing a single page (not two), that
page holding 501 items (not 500), refuting the claimed 500/1 split. -/
theorem C3_counterexample :
    (gi_load_pagination (gi_append_records "now" (List.replicate 501 sampleSlim)
      gi_init).state).files.length = 1 ∧
    (assocRead (gi_append_records "now" (List.replicate 501 sampleSlim)
      gi_init).state.pages "index_1.json" []).length = 501 := by
  constructor <;> decide

/-! Cycle-level lemmas (C6). -/

theorem save_store_writes_of_added_nil (today : Date) (fm : Option FeedMeta)
    (entries : List Entry) (st : Store)
    (h : (save_full_news_of_today today fm entries st).added = []) :
    (save_full_news_of_today today fm entries st).store = st ∧
    (save_full_news_of_today today fm entries st).writes = [] := by
  rw [save_added_eq] at h
  unfold save_full_news_of_today
  simp only []
  rw [if_pos (by rw [List.isEmpty_iff]; exact h)]
  exact ⟨rfl, rfl⟩

theorem cycle_added_eq (today : Date) (fm : Option FeedMeta) (now_iso : String)
    (entries : List Entry) (st : CycleState) (hne : entries ≠ []) :
    (cycle today fm now_iso entries st).added =
      (save_full_news_of_today today fm entries st.partitions).added := by
  have he : entries.isEmpty = false := by
    cases entries with
    | nil => exact absurd rfl hne
    | cons x xs => rfl
  rw [cycle]
  rw [if_neg (by simp [he])]

/-- C6 (amended): a cycle with a nonempty feed batch in which the dedup filter
admits nothing leaves the day partitions, the index pages, the pagination
directory and the stats snapshot untouched, but still rewrites the month and
year manifest files — exactly those two paths are opened for writing. -/
theorem C6_empty_cycle_still_rewrites_manifests (today : Date) (fm : Option FeedMeta)
    (now_iso : String) (entries : List Entry) (st : CycleState)
    (hne : entries ≠ [])
    (hadd : (cycle today fm now_iso entries st).added = []) :
    (cycle today fm now_iso entries st).state.partitions = st.partitions ∧
    (cycle today fm now_iso entries st).state.gi = st.gi ∧
    (cycle today fm now_iso entries st).writes =
      [month_manifest_path today.year today.month, year_manifest_path today.year] := by
  have he : entries.isEmpty = false := by
    cases entries with
    | nil => exact absurd rfl hne
    | cons x xs => rfl
  rw [cycle_added_eq today fm now_iso entries st hne] at hadd
  have hsv := save_store_writes_of_added_nil today fm entries st.partitions hadd
  rw [cycle]
  rw [if_neg (by simp [he])]
  simp only [hsv.1, hsv.2, hadd, convert_full_to_slim, List.map_nil,
    gi_append_records_empty, List.nil_append]
  exact ⟨trivial, trivial, rfl⟩

theorem C6_empty_cycle_witness :
    (cycle sampleDate none "2025-11-09T12:00:00+01:00" [sampleEntryA]
      sampleCycleState).state.partitions = sampleCycleState.partitions ∧
    (cycle sampleDate none "2025-11-09T12:00:00+01:00" [sampleEntryA]
      sampleCycleState).state.gi = sampleCycleState.gi ∧
    (cycle sampleDate none "2025-11-09T12:00:00+01:00" [sampleEntryA]
      sampleCycleState).writes =
      [month_manifest_path sampleDate.year sampleDate.month,
        year_manifest_path sampleDate.year] :=
  C6_empty_cycle_still_rewrites_manifests sampleDate none
    "2025-11-09T12:00:00+01:00" [sampleEntryA] sampleCycleState
    (by decide) (by decide)

/-- C6 counterexample: re-submitting an already-archived entry admits nothing
new, yet the cycle still performs persisted writes (the month and year
manifests are rewritten), refuting "performs no further persisted writes". -/
theorem C6_counterexample :
    (cycle sampleDate none "2025-11-09T12:00:00+01:00" [sampleEntryA]
      sampleCycleState).added = [] ∧
    (cycle sampleDate none "2025-11-09T12:00:00+01:00" [sampleEntryA]
      sampleCycleState).writes ≠ [] := by
  constructor <;> decide

/-! Fault-tolerant read (C8). -/

/-- C8 (amended): `load_json_list` is total — for every file state other than a
well-formed list it degrades to the empty collection, and it logs exactly on
the exception branch (unreadable file or malformed JSON); a missing file and a
well-formed non-list payload degrade silently. -/
theorem C8_read_degrades_to_empty (fc : FileContent)
    (h : ∀ l, fc ≠ FileContent.list l) :
    (load_json_list fc).1 = [] ∧
    ((load_json_list fc).2 = true ↔
      (fc = FileContent.unreadable ∨ fc = FileContent.malformed)) := by
  cases fc with
  | missing => exact ⟨rfl, by simp [load_json_list]⟩
  | unreadable => exact ⟨rfl, by simp [load_json_list]⟩
  | malformed => exact ⟨rfl, by simp [load_json_list]⟩
  | notAList => exact ⟨rfl, by simp [load_json_list]⟩
  | list l => exact absurd rfl (h l)

theorem C8_read_degrades_witness :
    (load_json_list FileContent.malformed).1 = [] ∧
    ((load_json_list FileContent.malformed).2 = true ↔
      (FileContent.malformed = FileContent.unreadable ∨
        FileContent.malformed = FileContent.malformed)) :=
  C8_read_degrades_to_empty FileContent.malformed (by intro l h; cases h)

/-- C8 counterexample: a missing file degrades to the empty collection without
logging any fault, refuting "the fault is logged" for every degraded state. -/
theorem C8_counterexample :
    load_json_list FileContent.missing = ([], false) := rfl

end AnimBot
